import Mathlib

/-!
Shallow embedding of `steam_download_monitor.py` and proofs about it.

Modelling conventions: Python strings are `List Char` (or `String` at the
filesystem interface), filesystem paths are `String`, Python floats are `Rat`
(exact arithmetic; the literal `1e-6` is the rational `1/1000000`), Python
ints are `Int`, raised exceptions are `Except Unit` / `Option`, and the
filesystem is an explicit record of query functions.
-/

namespace SteamMonitor

/-- Characters matched by the regex class `\s` (ASCII range). -/
def pySpace (c : Char) : Bool :=
  c == ' ' || c == '\t' || c == '\n' || c == '\r' || c == '\x0b' || c == '\x0c'

/-- Scan to the next double quote: the quote-free prefix and the remainder
after the quote, or `none` when no quote occurs.  Building block of the
regex `KV_RE = "([^"]+)"\s*"([^"]*)"` matcher. -/
def splitQuote (s : List Char) : Option (List Char × List Char) :=
  match s.dropWhile (fun c => c != '"') with
  | _ :: r => some (s.takeWhile (fun c => c != '"'), r)
  | [] => none

theorem splitQuote_length {s k r : List Char} (h : splitQuote s = some (k, r)) :
    r.length < s.length := by
  unfold splitQuote at h
  rcases hd : s.dropWhile (fun c => c != '"') with _ | ⟨c, r0⟩
  · rw [hd] at h; exact absurd h (by simp)
  · rw [hd] at h
    simp only [Option.some.injEq, Prod.mk.injEq] at h
    obtain ⟨-, rfl⟩ := h
    have hle : (s.dropWhile (fun c => c != '"')).length ≤ s.length :=
      (List.dropWhile_sublist _).length_le
    rw [hd] at hle
    simp only [List.length_cons] at hle
    omega

theorem takeWhile_append_all {p : Char → Bool} (l s : List Char) (c0 : Char)
    (hl : ∀ c ∈ l, p c = true) (hc : p c0 = false) :
    (l ++ c0 :: s).takeWhile p = l := by
  induction l with
  | nil => simp [List.takeWhile_cons, hc]
  | cons a t ih =>
      have ha : p a = true := hl a (by simp)
      simp [List.takeWhile_cons, ha, ih (fun c hcm => hl c (by simp [hcm]))]

theorem dropWhile_append_all {p : Char → Bool} (l s : List Char) (c0 : Char)
    (hl : ∀ c ∈ l, p c = true) (hc : p c0 = false) :
    (l ++ c0 :: s).dropWhile p = c0 :: s := by
  induction l with
  | nil => simp [List.dropWhile_cons, hc]
  | cons a t ih =>
      have ha : p a = true := hl a (by simp)
      simp [List.dropWhile_cons, ha, ih (fun c hcm => hl c (by simp [hcm]))]

theorem splitQuote_embed (k s : List Char) (hk : ∀ c ∈ k, c ≠ '"') :
    splitQuote (k ++ '"' :: s) = some (k, s) := by
  have hl : ∀ c ∈ k, (c != '"') = true := by
    intro c hc; simpa using hk c hc
  have hc : (('"' : Char) != '"') = false := by decide
  unfold splitQuote
  rw [dropWhile_append_all k s '"' hl hc, takeWhile_append_all k s '"' hl hc]

/-- Attempt to match the tail of `KV_RE` at a position just after an opening
quote: `([^"]+)"\s*"([^"]*)"`.  Returns the key, the value, and the rest of
the input after the match. -/
def tryMatch (s : List Char) : Option (List Char × List Char × List Char) :=
  match splitQuote s with
  | none => none
  | some (k, r2) =>
    if k = [] then none
    else
      match r2.dropWhile pySpace with
      | c :: r4 =>
        if c = '"' then
          match splitQuote r4 with
          | none => none
          | some (v, r6) => some (k, v, r6)
        else none
      | [] => none

theorem tryMatch_length {s k v r : List Char} (h : tryMatch s = some (k, v, r)) :
    r.length < s.length := by
  unfold tryMatch at h
  split at h
  · exact absurd h (by simp)
  next k0 r2 h1 =>
    split at h
    · exact absurd h (by simp)
    · split at h
      next c r4 h2 =>
        split at h
        · split at h
          · exact absurd h (by simp)
          next v0 r6 h3 =>
            simp only [Option.some.injEq, Prod.mk.injEq] at h
            obtain ⟨-, -, rfl⟩ := h
            have l1 : r6.length < r4.length := splitQuote_length h3
            have l2 : (r2.dropWhile pySpace).length ≤ r2.length :=
              (List.dropWhile_sublist _).length_le
            rw [h2] at l2
            simp only [List.length_cons] at l2
            have l3 : r2.length < s.length := splitQuote_length h1
            omega
        · exact absurd h (by simp)
      next =>
        exact absurd h (by simp)

/-- Fuel-driven worker for the `KV_RE` scan (structural recursion so that
concrete inputs evaluate); the fuel dominates the input length. -/
def findallKVAux : Nat → List Char → List (List Char × List Char)
  | _, [] => []
  | 0, _ :: _ => []
  | fuel + 1, c :: rest =>
    if c = '"' then
      match tryMatch rest with
      | some (k, v, r) => (k, v) :: findallKVAux fuel r
      | none => findallKVAux fuel rest
    else findallKVAux fuel rest

theorem findallKVAux_fuel : ∀ (n : Nat), ∀ (m : Nat) (s : List Char),
    s.length ≤ n → s.length ≤ m → findallKVAux n s = findallKVAux m s := by
  intro n
  induction n with
  | zero =>
      intro m s hn _
      have hs : s = [] := List.length_eq_zero.mp (Nat.le_zero.mp hn)
      subst hs
      cases m <;> rfl
  | succ n ih =>
      intro m s hn hm
      match s, m with
      | [], m => cases m <;> rfl
      | c :: rest, 0 => simp at hm
      | c :: rest, m + 1 =>
          simp only [List.length_cons, Nat.succ_le_succ_iff] at hn hm
          simp only [findallKVAux]
          by_cases hc : c = '"'
          · rw [if_pos hc, if_pos hc]
            cases htm : tryMatch rest with
            | some kvr =>
                obtain ⟨k, v, r⟩ := kvr
                have hrlt := tryMatch_length htm
                dsimp only
                rw [ih m r (by omega) (by omega)]
            | none =>
                dsimp only
                rw [ih m rest hn hm]
          · rw [if_neg hc, if_neg hc, ih m rest hn hm]

/-- `KV_RE.findall(text)`: left-to-right non-overlapping scan of the text for
`"([^"]+)"\s*"([^"]*)"`, yielding the (key, value) capture pairs.  A failed
attempt at an opening quote resumes scanning one character later, exactly as
the `re` module does. -/
def findallKV (s : List Char) : List (List Char × List Char) :=
  findallKVAux s.length s

theorem findallKV_nil : findallKV [] = [] := rfl

theorem findallKV_cons_some {rest k v r : List Char}
    (h : tryMatch rest = some (k, v, r)) :
    findallKV ('"' :: rest) = (k, v) :: findallKV r := by
  unfold findallKV
  simp only [List.length_cons, findallKVAux, if_pos rfl, h, if_true]
  rw [findallKVAux_fuel rest.length r.length r
    (le_of_lt (tryMatch_length h)) le_rfl]

theorem findallKV_cons_none {rest : List Char} (h : tryMatch rest = none) :
    findallKV ('"' :: rest) = findallKV rest := by
  unfold findallKV
  simp only [List.length_cons, findallKVAux, if_pos rfl, h, if_true]

theorem findallKV_cons_other {c : Char} {rest : List Char} (h : c ≠ '"') :
    findallKV (c :: rest) = findallKV rest := by
  unfold findallKV
  simp only [List.length_cons, findallKVAux, if_neg h]

theorem findallKV_append_junk {j s : List Char} (hj : ∀ c ∈ j, c ≠ '"') :
    findallKV (j ++ s) = findallKV s := by
  induction j with
  | nil => simp
  | cons a t ih =>
      have ha : a ≠ '"' := hj a (by simp)
      rw [List.cons_append, findallKV_cons_other ha]
      exact ih (fun c hc => hj c (by simp [hc]))

theorem tryMatch_embed (k ws v s : List Char)
    (hk : k ≠ []) (hkq : ∀ c ∈ k, c ≠ '"')
    (hws : ∀ c ∈ ws, pySpace c = true) (hv : ∀ c ∈ v, c ≠ '"') :
    tryMatch (k ++ '"' :: (ws ++ '"' :: (v ++ '"' :: s))) = some (k, v, s) := by
  unfold tryMatch
  rw [splitQuote_embed k _ hkq]
  simp only [if_neg hk]
  rw [dropWhile_append_all ws _ '"' hws (by decide)]
  simp only [if_pos rfl]
  rw [splitQuote_embed v _ hv]
  simp

/-- One insertion step of Python `dict(pairs)`: overwrite the value when the
key is already bound, append otherwise. -/
def dictInsert (d : List (List Char × List Char)) (kv : List Char × List Char) :
    List (List Char × List Char) :=
  if d.any (fun e => e.1 = kv.1) then
    d.map (fun e => if e.1 = kv.1 then kv else e)
  else d ++ [kv]

/-- `dict(pairs)` for a list of (key, value) pairs: later occurrences of a
key overwrite earlier ones. -/
def pyDict (l : List (List Char × List Char)) : List (List Char × List Char) :=
  l.foldl dictInsert []

/-- First-match association lookup (Python `dict` lookup on the unique-key
lists produced by `pyDict`). -/
def lookupKV (k : List Char) : List (List Char × List Char) → Option (List Char)
  | [] => none
  | e :: t => if e.1 = k then some e.2 else lookupKV k t

theorem lookupKV_map_ne {k : List Char} {kv : List Char × List Char}
    (d : List (List Char × List Char)) (hne : k ≠ kv.1) :
    lookupKV k (d.map (fun e => if e.1 = kv.1 then kv else e)) = lookupKV k d := by
  induction d with
  | nil => rfl
  | cons e t ih =>
      by_cases he : e.1 = kv.1
      · simp only [List.map_cons, if_pos he, lookupKV]
        rw [if_neg (fun hc => hne hc.symm), if_neg (by rw [he]; exact fun hc => hne hc.symm)]
        exact ih
      · simp only [List.map_cons, if_neg he, lookupKV]
        by_cases hek : e.1 = k
        · rw [if_pos hek, if_pos hek]
        · rw [if_neg hek, if_neg hek]
          exact ih

theorem lookupKV_map_found {kv : List Char × List Char}
    (d : List (List Char × List Char))
    (hd : d.any (fun e => e.1 = kv.1) = true) :
    lookupKV kv.1 (d.map (fun e => if e.1 = kv.1 then kv else e)) = some kv.2 := by
  induction d with
  | nil => simp at hd
  | cons e t ih =>
      by_cases he : e.1 = kv.1
      · simp [List.map_cons, if_pos he, lookupKV]
      · simp only [List.map_cons, if_neg he, lookupKV]
        apply ih
        simp only [List.any_cons, Bool.or_eq_true, decide_eq_true_eq] at hd
        rcases hd with hd | hd
        · exact absurd hd he
        · exact hd

theorem lookupKV_append (k : List Char) (d1 d2 : List (List Char × List Char)) :
    lookupKV k (d1 ++ d2) =
      match lookupKV k d1 with
      | some v => some v
      | none => lookupKV k d2 := by
  induction d1 with
  | nil => rfl
  | cons e t ih =>
      simp only [List.cons_append, lookupKV]
      by_cases he : e.1 = k
      · rw [if_pos he, if_pos he]
      · rw [if_neg he, if_neg he]
        exact ih

theorem lookupKV_dictInsert (k : List Char) (kv : List Char × List Char)
    (d : List (List Char × List Char)) :
    lookupKV k (dictInsert d kv) =
      if k = kv.1 then some kv.2 else lookupKV k d := by
  unfold dictInsert
  by_cases hany : d.any (fun e => e.1 = kv.1) = true
  · rw [if_pos hany]
    by_cases hk : k = kv.1
    · rw [if_pos hk, hk]
      exact lookupKV_map_found d hany
    · rw [if_neg hk]
      exact lookupKV_map_ne d hk
  · rw [if_neg hany, lookupKV_append]
    by_cases hk : k = kv.1
    · rw [if_pos hk]
      have hnone : lookupKV k d = none := by
        induction d with
        | nil => rfl
        | cons e t ih =>
            simp only [List.any_cons, Bool.or_eq_true, not_or] at hany
            simp only [lookupKV]
            rw [if_neg (by rw [hk]; intro hc; exact hany.1 (by simpa using hc))]
            exact ih (by simpa using hany.2)
      rw [hnone]
      simp [lookupKV, hk]
    · rw [if_neg hk]
      cases hlk : lookupKV k d with
      | some v => simp
      | none =>
          simp only [lookupKV]
          rw [if_neg (fun hc : kv.1 = k => hk hc.symm)]

theorem lookupKV_foldl (l : List (List Char × List Char)) :
    ∀ d k, lookupKV k (l.foldl dictInsert d) =
      match lookupKV k l.reverse with
      | some v => some v
      | none => lookupKV k d := by
  induction l with
  | nil =>
      intro d k
      simp [lookupKV]
  | cons kv t ih =>
      intro d k
      simp only [List.foldl_cons, List.reverse_cons]
      rw [ih, lookupKV_append]
      cases hlt : lookupKV k t.reverse with
      | some v => simp
      | none =>
          simp only
          rw [lookupKV_dictInsert]
          by_cases hk : k = kv.1
          · simp [lookupKV, if_pos hk, hk]
          · simp only [if_neg hk, lookupKV]
            rw [if_neg (fun hc : kv.1 = k => hk hc.symm)]

/-- In `pyDict`, the value bound to a key is that of the LAST occurrence of
the key in the input pair list. -/
theorem lookupKV_pyDict (l : List (List Char × List Char)) (k : List Char) :
    lookupKV k (pyDict l) = lookupKV k l.reverse := by
  unfold pyDict
  rw [lookupKV_foldl]
  cases lookupKV k l.reverse <;> simp [lookupKV]

theorem mem_dictInsert {e kv : List Char × List Char}
    {d : List (List Char × List Char)} (h : e ∈ dictInsert d kv) :
    e ∈ d ∨ e = kv := by
  unfold dictInsert at h
  split at h
  · rcases List.mem_map.mp h with ⟨a, ha, hae⟩
    by_cases hc : a.1 = kv.1
    · rw [if_pos hc] at hae; exact Or.inr hae.symm
    · rw [if_neg hc] at hae; exact Or.inl (hae ▸ ha)
  · rcases List.mem_append.mp h with h1 | h1
    · exact Or.inl h1
    · exact Or.inr (by simpa using h1)

theorem mem_pyDict {e : List Char × List Char} {l : List (List Char × List Char)}
    (h : e ∈ pyDict l) : e ∈ l := by
  unfold pyDict at h
  suffices hgen : ∀ d, e ∈ l.foldl dictInsert d → e ∈ d ∨ e ∈ l by
    rcases hgen [] h with h1 | h1
    · simp at h1
    · exact h1
  clear h
  induction l with
  | nil => intro d hd; exact Or.inl hd
  | cons kv t ih =>
      intro d hd
      simp only [List.foldl_cons] at hd
      rcases ih (dictInsert d kv) hd with h1 | h1
      · rcases mem_dictInsert h1 with h2 | h2
        · exact Or.inl h2
        · exact Or.inr (by simp [h2])
      · exact Or.inr (by simp [h1])

/-- One well-formed quoted pair followed by trailing junk, as used to build a
text in which the extracted pairs are unambiguous. -/
structure KVChunk where
  key : List Char
  ws : List Char
  val : List Char
  junk : List Char

def chunkText (c : KVChunk) : List Char :=
  '"' :: (c.key ++ '"' :: (c.ws ++ '"' :: (c.val ++ '"' :: c.junk)))

/-- A text made of leading junk, then quoted pairs each followed by junk. -/
def embedKV (j0 : List Char) (cs : List KVChunk) : List Char :=
  j0 ++ (cs.map chunkText).flatten

/-- Well-formedness of one embedded pair: non-empty quote-free key, only
whitespace between the quoted tokens, quote-free value and trailing junk. -/
def chunkWF (c : KVChunk) : Prop :=
  c.key ≠ [] ∧ (∀ ch ∈ c.key, ch ≠ '"') ∧ (∀ ch ∈ c.ws, pySpace ch = true) ∧
    (∀ ch ∈ c.val, ch ≠ '"') ∧ (∀ ch ∈ c.junk, ch ≠ '"')

theorem findallKV_embed (cs : List KVChunk) :
    ∀ j0, (∀ c ∈ j0, c ≠ '"') → (∀ c ∈ cs, chunkWF c) →
      findallKV (embedKV j0 cs) = cs.map (fun c => (c.key, c.val)) := by
  induction cs with
  | nil =>
      intro j0 hj _
      have h := findallKV_append_junk (j := j0) (s := []) hj
      simpa [embedKV, findallKV_nil] using h
  | cons c t ih =>
      intro j0 hj hcs
      obtain ⟨hk, hkq, hws, hv, hjk⟩ := hcs c (by simp)
      have hrest : ∀ x ∈ t, chunkWF x := fun x hx => hcs x (by simp [hx])
      have e1 : embedKV j0 (c :: t) =
          j0 ++ ('"' :: (c.key ++ '"' :: (c.ws ++ '"' ::
            (c.val ++ '"' :: (c.junk ++ (t.map chunkText).flatten))))) := by
        simp [embedKV, chunkText]
      rw [e1, findallKV_append_junk hj,
        findallKV_cons_some (tryMatch_embed c.key c.ws c.val _ hk hkq hws hv)]
      have e2 : c.junk ++ (t.map chunkText).flatten = embedKV c.junk t := rfl
      rw [e2, ih c.junk hjk hrest]
      simp

theorem splitQuote_shape {s k r : List Char} (h : splitQuote s = some (k, r)) :
    ∀ c ∈ k, c ≠ '"' := by
  unfold splitQuote at h
  split at h
  next c0 r0 hd =>
    simp only [Option.some.injEq, Prod.mk.injEq] at h
    obtain ⟨rfl, -⟩ := h
    intro c hc
    have hp := List.mem_takeWhile_imp hc
    simpa using hp
  next => exact absurd h (by simp)

theorem tryMatch_shape {s k v r : List Char} (h : tryMatch s = some (k, v, r)) :
    k ≠ [] ∧ (∀ c ∈ k, c ≠ '"') ∧ (∀ c ∈ v, c ≠ '"') := by
  unfold tryMatch at h
  split at h
  · exact absurd h (by simp)
  next k0 r2 h1 =>
    split at h
    · exact absurd h (by simp)
    next hk0 =>
      split at h
      next c r4 h2 =>
        split at h
        · split at h
          · exact absurd h (by simp)
          next v0 r6 h3 =>
            simp only [Option.some.injEq, Prod.mk.injEq] at h
            obtain ⟨rfl, rfl, rfl⟩ := h
            exact ⟨hk0, splitQuote_shape h1, splitQuote_shape h3⟩
        · exact absurd h (by simp)
      next => exact absurd h (by simp)

theorem findallKV_shape_aux (n : Nat) : ∀ s : List Char, s.length ≤ n →
    ∀ p ∈ findallKV s,
      p.1 ≠ [] ∧ (∀ c ∈ p.1, c ≠ '"') ∧ (∀ c ∈ p.2, c ≠ '"') := by
  induction n with
  | zero =>
      intro s hs
      have : s = [] := List.length_eq_zero.mp (Nat.le_zero.mp hs)
      subst this
      simp [findallKV_nil]
  | succ n ih =>
      intro s hs p hp
      match s with
      | [] => simp [findallKV_nil] at hp
      | c :: rest =>
        simp only [List.length_cons, Nat.succ_le_succ_iff] at hs
        by_cases hc : c = '"'
        · subst hc
          cases htm : tryMatch rest with
          | some kvr =>
              obtain ⟨k, v, r⟩ := kvr
              rw [findallKV_cons_some htm] at hp
              rcases List.mem_cons.mp hp with hp1 | hp1
              · subst hp1
                exact tryMatch_shape htm
              · have hr : r.length ≤ n :=
                  Nat.le_of_lt_succ (Nat.lt_of_lt_of_le (tryMatch_length htm)
                    (Nat.le_succ_of_le hs))
                exact ih r hr p hp1
          | none =>
              rw [findallKV_cons_none htm] at hp
              exact ih rest hs p hp
        · rw [findallKV_cons_other hc] at hp
          exact ih rest hs p hp

/-- Every pair produced by the `KV_RE` scan has a non-empty quote-free key
and a quote-free value. -/
theorem findallKV_shape (s : List Char) :
    ∀ p ∈ findallKV s,
      p.1 ≠ [] ∧ (∀ c ∈ p.1, c ≠ '"') ∧ (∀ c ∈ p.2, c ≠ '"') :=
  findallKV_shape_aux s.length s le_rfl

/-- Abstract read-only filesystem: existence tests, text reads (`none`
models a raised `OSError`), and `Path.resolve` canonicalization. -/
structure FS where
  fexists : String → Bool
  readText : String → Option (List Char)
  resolve : String → String

/-- `parse_kv(path)`: read the file (the try/except maps a raised read error
to the empty dict), then build a dict from all `KV_RE` matches. -/
def parse_kv (fs : FS) (path : String) : List (List Char × List Char) :=
  match fs.readText path with
  | none => []
  | some text => pyDict (findallKV text)

def vdfPath (root : String) : String := root ++ "/steamapps/libraryfolders.vdf"

/-- The literal path spellings `get_libraries` collects before
canonicalization: the root, plus every parsed registry value that names an
existing path. -/
def rawLibs (fs : FS) (root : String) (text : List Char) : List String :=
  root :: (findallKV text).filterMap
    (fun kv => if fs.fexists (String.mk kv.2) then some (String.mk kv.2) else none)

/-- `get_libraries(steam_root)`.  The source reads the registry file with
`Path.read_text` directly and without a try/except, so a file that exists
but whose read raises escapes to the caller: modelled by `Except.error ()`.
The final `list({p.resolve() for p in libs})` is modelled as `dedup` of the
resolved paths (the properties proved below are order-insensitive). -/
def get_libraries (fs : FS) (root : String) : Except Unit (List String) :=
  if fs.fexists (vdfPath root) then
    match fs.readText (vdfPath root) with
    | none => .error ()
    | some text => .ok ((rawLibs fs root text).map fs.resolve).dedup
  else .ok ([root].map fs.resolve).dedup

def manifestPath (lib : String) (appid : String) : String :=
  lib ++ "/steamapps/appmanifest_" ++ appid ++ ".acf"

/-- `game_name(appid, libs)`: first library holding a manifest file for the
appid wins; the `name` key of its parsed dict is returned,
`dict.get`-defaulting to `"AppID <id>"`. -/
def game_name (fs : FS) (appid : String) : List String → String
  | [] => "AppID " ++ appid
  | lib :: rest =>
    if fs.fexists (manifestPath lib appid) then
      match lookupKV "name".data (parse_kv fs (manifestPath lib appid)) with
      | some v => String.mk v
      | none => "AppID " ++ appid
    else game_name fs appid rest

/-- One entry of `droot.iterdir()`: its basename, whether it is a directory,
and its `st_mtime`. -/
structure DirEntry where
  name : String
  isDir : Bool
  mtime : Rat

/-- One library as the detector sees it: its path, whether
`<lib>/steamapps/downloading` exists, and that directory's entries. -/
structure Library where
  path : String
  dlExists : Bool
  entries : List DirEntry

/-- Python `str.isdigit` (ASCII fragment): nonempty and every char a decimal
digit. -/
def pyIsdigit (s : String) : Bool := !s.isEmpty && s.data.all Char.isDigit

def entryPath (lib : Library) (d : DirEntry) : String :=
  lib.path ++ "/steamapps/downloading/" ++ d.name

/-- The `(mtime, name, path)` records one library contributes to the scan in
`find_active_download`: skipped entirely when its `downloading` directory
does not exist, otherwise the numeric-named subdirectories. -/
def libCands (lib : Library) : List (Rat × String × String) :=
  if lib.dlExists then
    lib.entries.filterMap fun d =>
      if d.isDir && pyIsdigit d.name then some (d.mtime, d.name, entryPath lib d)
      else none
  else []

/-- The accumulator update `if not latest or mtime > latest[0]`. -/
def updLatest (acc : Option (Rat × String × String)) (c : Rat × String × String) :
    Option (Rat × String × String) :=
  match acc with
  | none => some c
  | some a => if c.1 > a.1 then some c else acc

/-- `find_active_download(libs)`: the nested loops are the left fold of the
accumulator update over the concatenated per-library candidate lists; the
result drops the mtime (`latest[1:]`), `none` standing for `(None, None)`. -/
def find_active_download (libs : List Library) : Option (String × String) :=
  ((libs.flatMap libCands).foldl updLatest none).map (fun l => (l.2.1, l.2.2))

/-- The float literal `1e-6`, as an exact rational. -/
def eps : Rat := 1 / 1000000

/-- Python builtin `max(a, b)` on ints (first argument wins ties). -/
def pyMaxInt (a b : Int) : Int := if a < b then b else a

/-- Python builtin `max(a, b)` on floats-as-rationals. -/
def pyMaxRat (a b : Rat) : Rat := if a < b then b else a

theorem pyMaxInt_eq_max (a b : Int) : pyMaxInt a b = max a b := by
  unfold pyMaxInt
  rcases le_or_lt b a with h | h
  · rw [if_neg (not_lt.mpr h), max_eq_left h]
  · rw [if_pos h, max_eq_right (le_of_lt h)]

theorem pyMaxRat_eq_max (a b : Rat) : pyMaxRat a b = max a b := by
  unfold pyMaxRat
  rcases le_or_lt b a with h | h
  · rw [if_neg (not_lt.mpr h), max_eq_left h]
  · rw [if_pos h, max_eq_right (le_of_lt h)]

/-- The rate computation inline in `main`:
`speed = max(0, size - last_size) / max(1e-6, t - last_time)`. -/
def estimate_rate (prev_size : Int) (prev_time : Rat) (cur_size : Int)
    (cur_time : Rat) : Rat :=
  ((pyMaxInt 0 (cur_size - prev_size) : Int) : Rat) / pyMaxRat eps (cur_time - prev_time)

/-- `status(speed)`. -/
def status (speed : Rat) : String :=
  if speed > 50000 then "DOWNLOADING" else "PAUSED"

/-- One file as seen by the two separate filesystem queries `dir_size`
makes about it: the outcome of the `f.exists()` guard, whether the later
`f.stat()` call still finds the file — `false` models deletion in the
window between the two queries — and the `st_size` the stat reports when it
succeeds. -/
structure PFile where
  size : Nat
  existsAtGuard : Bool
  existsAtStat : Bool

mutual
inductive FTree where
  | node : List PFile → FForest → FTree
inductive FForest where
  | fnil : FForest
  | fcons : FTree → FForest → FForest
end

mutual
/-- The `files` lists yielded by `os.walk(path)`, top-down. -/
def walkFiles : FTree → List (List PFile)
  | .node fl subs => fl :: walkForest subs
def walkForest : FForest → List (List PFile)
  | .fnil => []
  | .fcons t ts => walkFiles t ++ walkForest ts
end

/-- `f.stat().st_size`: the `FileNotFoundError` raised for a file that
vanished after passing the guard is `Except.error` — `dir_size` has no
try/except around it. -/
def statSize (f : PFile) : Except Unit Nat :=
  if f.existsAtStat then .ok f.size else .error ()

/-- The lazy `sum(...)` over the generator of sizes: adds `statSize` of each
file in order and aborts at the first stat that raises. -/
def sumSizes : List PFile → Except Unit Nat
  | [] => .ok 0
  | f :: rest =>
      match statSize f with
      | .error e => .error e
      | .ok n =>
          match sumSizes rest with
          | .error e => .error e
          | .ok m => .ok (n + m)

/-- `dir_size(path)`: over every directory `os.walk` yields, take the files
passing the `f.exists()` guard and sum `f.stat().st_size` over them.  The
guard and the stat are separate queries, so a file deleted between the two
makes the stat raise out of the sum uncaught. -/
def dir_size (t : FTree) : Except Unit Nat :=
  sumSizes ((walkFiles t).flatMap (fun fl => fl.filter (fun f => f.existsAtGuard)))

mutual
/-- All files reachable under the tree, nested subdirectories included. -/
def reachFiles : FTree → List PFile
  | .node fl subs => fl ++ reachForest subs
def reachForest : FForest → List PFile
  | .fnil => []
  | .fcons t ts => reachFiles t ++ reachForest ts
end

/-- What one polling tick prints (the observation record). -/
inductive Observation where
  | noActive
  | active (appid : String) (speed : Rat)
deriving DecidableEq

/-- One iteration of the polling loop in `main` (lines 105-127), given the
stored `(last_size, last_time)` sample and the tick's detection plus
measurement `(appid, size, t)`.  The stored sample is reset only in the
no-active branch; the active branch computes the speed from whatever sample
is stored, with no check that it belongs to the same appid. -/
def mainTick (st : Option (Int × Rat)) (det : Option (String × Int × Rat)) :
    Observation × Option (Int × Rat) :=
  match det with
  | none => (.noActive, none)
  | some (appid, size, t) =>
      let speed :=
        match st with
        | none => (0 : Rat)
        | some (ls, lt) => estimate_rate ls lt size t
      (.active appid speed, some (size, t))

theorem updLatest_none_eq (c : Rat × String × String) : updLatest none c = some c := rfl

theorem updLatest_some_eq (a c : Rat × String × String) :
    updLatest (some a) c = if c.1 > a.1 then some c else some a := rfl

theorem foldl_updLatest_none (l : List (Rat × String × String)) :
    ∀ acc, l.foldl updLatest acc = none ↔ acc = none ∧ l = [] := by
  induction l with
  | nil => intro acc; simp
  | cons c t ih =>
      intro acc
      simp only [List.foldl_cons]
      rw [ih]
      constructor
      · rintro ⟨h1, -⟩
        exfalso
        cases acc with
        | none => simp [updLatest] at h1
        | some a =>
            rw [updLatest_some_eq] at h1
            split at h1 <;> simp at h1
      · rintro ⟨-, h⟩
        exact absurd h (by simp)

theorem foldl_updLatest_some (l : List (Rat × String × String)) :
    ∀ acc b, l.foldl updLatest acc = some b →
      (b ∈ l ∨ acc = some b) ∧ (∀ c ∈ l, c.1 ≤ b.1) ∧
        (∀ a, acc = some a → a.1 ≤ b.1) := by
  induction l with
  | nil =>
      intro acc b h
      simp only [List.foldl_nil] at h
      refine ⟨Or.inr h, by simp, fun a ha => ?_⟩
      rw [ha] at h
      obtain rfl := Option.some.inj h
      exact le_rfl
  | cons c t ih =>
      intro acc b h
      simp only [List.foldl_cons] at h
      obtain ⟨hmem, hall, hacc⟩ := ih (updLatest acc c) b h
      have hcb : c.1 ≤ b.1 ∧ ∀ a, acc = some a → a.1 ≤ b.1 := by
        cases acc with
        | none =>
            refine ⟨hacc c rfl, ?_⟩
            intro a ha
            cases ha
        | some a =>
            by_cases hgt : c.1 > a.1
            · have h1 := hacc c (by simp [updLatest, if_pos hgt])
              refine ⟨h1, ?_⟩
              intro a2 ha2
              obtain rfl := Option.some.inj ha2
              exact le_of_lt (lt_of_lt_of_le hgt h1)
            · have h1 := hacc a (by simp [updLatest, if_neg hgt])
              refine ⟨le_trans (not_lt.mp hgt) h1, ?_⟩
              intro a2 ha2
              obtain rfl := Option.some.inj ha2
              exact h1
      refine ⟨?_, ?_, hcb.2⟩
      · rcases hmem with hm | hm
        · exact Or.inl (by simp [hm])
        · cases acc with
          | none =>
              obtain rfl : c = b := Option.some.inj hm
              exact Or.inl (by simp)
          | some a =>
              rw [updLatest_some_eq] at hm
              split at hm
              · obtain rfl : c = b := Option.some.inj hm
                exact Or.inl (by simp)
              · exact Or.inr hm
      · intro c2 hc2
        rcases List.mem_cons.mp hc2 with rfl | hc2
        · exact hcb.1
        · exact hall c2 hc2

/-- Sizes of the files that pass the `f.exists()` guard. -/
def guardSum (fl : List PFile) : Nat :=
  ((fl.filter (fun f => f.existsAtGuard)).map (fun f => f.size)).sum

theorem sumSizes_ok (fl : List PFile) (h : ∀ f ∈ fl, f.existsAtStat = true) :
    sumSizes fl = .ok ((fl.map (fun f => f.size)).sum) := by
  induction fl with
  | nil => rfl
  | cons f rest ih =>
      have hf : f.existsAtStat = true := h f (by simp)
      rw [sumSizes]
      simp only [statSize, hf, if_true]
      rw [ih (fun x hx => h x (by simp [hx]))]
      simp

theorem flatMap_filter_guard (L : List (List PFile)) :
    L.flatMap (fun fl => fl.filter (fun f => f.existsAtGuard)) =
      L.flatten.filter (fun f => f.existsAtGuard) := by
  induction L with
  | nil => rfl
  | cons a t ih => simp [List.filter_append, ih]

mutual
theorem walkFiles_flatten (t : FTree) :
    (walkFiles t).flatten = reachFiles t := by
  match t with
  | .node fl subs =>
      rw [show walkFiles (.node fl subs) = fl :: walkForest subs from rfl,
        List.flatten_cons, walkForest_flatten subs,
        show reachFiles (.node fl subs) = fl ++ reachForest subs from rfl]
theorem walkForest_flatten (ts : FForest) :
    (walkForest ts).flatten = reachForest ts := by
  match ts with
  | .fnil => rfl
  | .fcons t rest =>
      rw [show walkForest (.fcons t rest) = walkFiles t ++ walkForest rest from rfl,
        List.flatten_append, walkFiles_flatten t, walkForest_flatten rest,
        show reachForest (.fcons t rest) = reachFiles t ++ reachForest rest from rfl]
end

/-- When no file vanishes between its guard and its stat, `dir_size`
succeeds and returns the sum of the sizes of the guard-passing files
reachable anywhere under the tree, nested subdirectories included (a file
already gone when the guard ran is skipped, contributing zero). -/
theorem dir_size_no_race (t : FTree)
    (h : ∀ f ∈ reachFiles t, f.existsAtGuard = true → f.existsAtStat = true) :
    dir_size t = .ok (guardSum (reachFiles t)) := by
  unfold dir_size
  rw [flatMap_filter_guard, walkFiles_flatten, sumSizes_ok]
  · rfl
  · intro f hf
    have hm := List.mem_filter.mp hf
    exact h f hm.1 hm.2

/-! Claim theorems. -/

/-- C3: `classify` returns DOWNLOADING iff the rate strictly exceeds 50000
bytes/second and PAUSED otherwise; in particular a rate of exactly 50000 is
PAUSED and 50001 is DOWNLOADING. -/
theorem c3_status_threshold :
    (∀ r : Rat, (status r = "DOWNLOADING" ↔ 50000 < r) ∧
      (status r = "PAUSED" ↔ ¬ 50000 < r)) ∧
    status 50000 = "PAUSED" ∧ status 50001 = "DOWNLOADING" := by
  refine ⟨fun r => ?_, by decide, by decide⟩
  unfold status
  by_cases h : (50000 : Rat) < r
  · rw [if_pos h]
    exact ⟨⟨fun _ => h, fun _ => rfl⟩,
      ⟨fun he => absurd he (by decide), fun hn => absurd h hn⟩⟩
  · rw [if_neg h]
    exact ⟨⟨fun he => absurd he (by decide), fun hr => absurd hr h⟩,
      ⟨fun _ => h, fun _ => rfl⟩⟩

/-- C4: the estimated rate is exactly `max(0, Δsize) / max(ε, Δt)` with the
fixed positive ε = 10⁻⁶, hence non-negative, and the divisor is positive
even for zero or negative elapsed time; the spec's shrinkage example clamps
to a zero rate, classified PAUSED. -/
theorem c4_estimate_rate :
    (∀ (ps cs : Int) (pt ct : Rat),
      estimate_rate ps pt cs ct =
        ((max 0 (cs - ps) : Int) : Rat) / max eps (ct - pt) ∧
      0 ≤ estimate_rate ps pt cs ct ∧ 0 < max eps (ct - pt)) ∧
    0 < eps ∧
    estimate_rate 1000 0 500 1 = 0 ∧
    status (estimate_rate 1000 0 500 1) = "PAUSED" := by
  have heps : (0 : Rat) < eps := by norm_num [eps]
  have hzero : estimate_rate 1000 0 500 1 = 0 := by
    unfold estimate_rate pyMaxInt pyMaxRat eps
    norm_num
  refine ⟨fun ps cs pt ct => ⟨?_, ?_, ?_⟩, heps, hzero, by rw [hzero]; decide⟩
  · unfold estimate_rate
    rw [pyMaxInt_eq_max, pyMaxRat_eq_max]
  · apply div_nonneg
    · unfold estimate_rate at *
      have h1 : (0 : Int) ≤ pyMaxInt 0 (cs - ps) := by
        rw [pyMaxInt_eq_max]; exact le_max_left 0 _
      exact_mod_cast h1
    · rw [pyMaxRat_eq_max]
      exact le_trans (le_of_lt heps) (le_max_left _ _)
  · exact lt_of_lt_of_le heps (le_max_left _ _)

/-- C1 (code bug evaluation): `main` stores no appid alongside the sample,
so after tracking id "10" with baseline (size 1000, t = 0), a tick in which
the detector returns the different id "20" (size 2000000, t = 1) reports the
mixed rate (2000000 - 1000) / 1 = 1999000 B/s — classified DOWNLOADING — not
the zero rate required by the claimed item-switch reset; the stored sample
is only discarded in the no-active-item branch. -/
theorem c1_item_switch_mixes_samples :
    (mainTick (mainTick none (some ("10", 1000, 0))).2 (some ("20", 2000000, 1))).1 =
      Observation.active "20" 1999000 ∧
    status 1999000 = "DOWNLOADING" ∧
    (mainTick none (some ("10", 1000, 0))).2 = some (1000, 0) ∧
    (mainTick none (some ("10", 1000, 0))).1 = Observation.active "10" 0 := by
  have h : estimate_rate 1000 0 2000000 1 = (1999000 : Rat) := by
    unfold estimate_rate pyMaxInt pyMaxRat eps
    norm_num
  refine ⟨?_, by decide, rfl, rfl⟩
  simp only [mainTick]
  rw [h]

/-- Filesystem in which the registry file exists but reading it raises. -/
def fsC2bad : FS where
  fexists := fun p => p == "/steam/steamapps/libraryfolders.vdf"
  readText := fun _ => none
  resolve := fun p => p

/-- C2 counterexample: `get_libraries` reads the registry file without a
try/except, so an existing file whose read raises propagates the error to
the caller instead of degrading to the root-only library set. -/
theorem c2_counterexample : get_libraries fsC2bad "/steam" = .error () := rfl

/-- C2 (amended): when the registry file is missing, or exists and its read
succeeds (with arbitrary, possibly garbage, content), `get_libraries` raises
nothing and the returned library set contains the resolved root; only an
existing registry file whose read itself raises escapes to the caller. -/
theorem c2_degrades (fs : FS) (root : String)
    (h : fs.fexists (vdfPath root) = false ∨
      ∃ t, fs.readText (vdfPath root) = some t) :
    ∃ libs, get_libraries fs root = .ok libs ∧ fs.resolve root ∈ libs := by
  by_cases hf : fs.fexists (vdfPath root) = true
  · rcases h with h | ⟨t, ht⟩
    · rw [hf] at h; cases h
    · refine ⟨((rawLibs fs root t).map fs.resolve).dedup, ?_, ?_⟩
      · unfold get_libraries
        rw [if_pos hf, ht]
      · rw [List.mem_dedup]
        exact List.mem_map.mpr ⟨root, by simp [rawLibs], rfl⟩
  · refine ⟨([root].map fs.resolve).dedup, ?_, ?_⟩
    · unfold get_libraries
      rw [if_neg hf]
    · simp

/-- Filesystem with no registry file at all. -/
def fsC2missing : FS where
  fexists := fun _ => false
  readText := fun _ => none
  resolve := fun p => p

theorem c2_witness :
    ∃ libs, get_libraries fsC2missing "/steam" = .ok libs ∧
      fsC2missing.resolve "/steam" ∈ libs :=
  c2_degrades fsC2missing "/steam" (Or.inl rfl)

/-- The literal path spellings fed to the canonicalize-and-dedup step, per
branch of `get_libraries`. -/
def gl_inputs (fs : FS) (root : String) : List String :=
  if fs.fexists (vdfPath root) then
    match fs.readText (vdfPath root) with
    | some t => rawLibs fs root t
    | none => [root]
  else [root]

/-- C7: a returned library list is duplicate-free and its members are
exactly the canonicalizations of the collected path spellings, so distinct
spellings resolving to the same real directory give exactly one entry. -/
theorem c7_dedup (fs : FS) (root : String) (libs : List String)
    (h : get_libraries fs root = .ok libs) :
    libs.Nodup ∧ ∀ q, q ∈ libs ↔ ∃ p ∈ gl_inputs fs root, fs.resolve p = q := by
  unfold get_libraries at h
  unfold gl_inputs
  by_cases hf : fs.fexists (vdfPath root) = true
  · rw [if_pos hf] at h ⊢
    cases hr : fs.readText (vdfPath root) with
    | none => rw [hr] at h; exact absurd h (by simp)
    | some t =>
        rw [hr] at h
        simp only [Except.ok.injEq] at h
        subst h
        refine ⟨List.nodup_dedup _, fun q => ?_⟩
        rw [List.mem_dedup, List.mem_map]
  · rw [if_neg hf] at h ⊢
    simp only [List.map_cons, List.map_nil, Except.ok.injEq] at h
    subst h
    refine ⟨List.nodup_dedup _, fun q => ?_⟩
    rw [List.mem_dedup]
    simp [eq_comm]

/-- Filesystem whose registry names a second spelling "/a" of the root
directory: both spellings canonicalize to "/steam". -/
def fsC7alias : FS where
  fexists := fun p => p == "/steam/steamapps/libraryfolders.vdf" || p == "/a"
  readText := fun _ => some ("\"1\" \"/a\"".data)
  resolve := fun p => if p = "/a" then "/steam" else p

theorem c7_witness :
    (["/steam"] : List String).Nodup ∧
      ∀ q, q ∈ (["/steam"] : List String) ↔
        ∃ p ∈ gl_inputs fsC7alias "/steam", fsC7alias.resolve p = q :=
  c7_dedup fsC7alias "/steam" ["/steam"] rfl

/-- C5: the detector's candidate set is exactly the digit-named subdirectory
entries of each library's existing `downloading` directory; the scan returns
`none` exactly when no candidate exists anywhere, and otherwise an entry of
maximal mtime; on the spec's example (mtimes 100/300/200 under ids
"10"/"20"/"30" plus an ignored "abc") it returns id "20". -/
theorem c5_find_active :
    (∀ libs : List Library,
      (find_active_download libs = none ↔ libs.flatMap libCands = []) ∧
      (∀ n p, find_active_download libs = some (n, p) →
        ∃ m, (m, n, p) ∈ libs.flatMap libCands ∧
          ∀ c ∈ libs.flatMap libCands, c.1 ≤ m)) ∧
    find_active_download
        [⟨"L", true, [⟨"10", true, 100⟩, ⟨"20", true, 300⟩, ⟨"30", true, 200⟩,
          ⟨"abc", true, 400⟩]⟩] =
      some ("20", "L/steamapps/downloading/20") := by
  constructor
  · intro libs
    constructor
    · unfold find_active_download
      rw [Option.map_eq_none', foldl_updLatest_none]
      simp
    · intro n p h
      unfold find_active_download at h
      rcases Option.map_eq_some'.mp h with ⟨l, hl, hf⟩
      obtain ⟨m, n2, p2⟩ := l
      simp only [Prod.mk.injEq] at hf
      obtain ⟨rfl, rfl⟩ := hf
      obtain ⟨hmem, hall, -⟩ := foldl_updLatest_some _ _ _ hl
      rcases hmem with hm | hm
      · exact ⟨m, hm, hall⟩
      · exact absurd hm (by simp)
  · decide

theorem c5_witness :
    ∃ m, (m, ("20" : String), ("L/steamapps/downloading/20" : String)) ∈
        ([⟨"L", true, [⟨"10", true, 100⟩, ⟨"20", true, 300⟩, ⟨"30", true, 200⟩,
          ⟨"abc", true, 400⟩]⟩] : List Library).flatMap libCands ∧
      ∀ c ∈ ([⟨"L", true, [⟨"10", true, 100⟩, ⟨"20", true, 300⟩,
          ⟨"30", true, 200⟩, ⟨"abc", true, 400⟩]⟩] : List Library).flatMap libCands,
        c.1 ≤ m :=
  (c5_find_active.1 _).2 "20" "L/steamapps/downloading/20" c5_find_active.2

/-- C6: a text consisting of well-formed quoted pairs embedded in arbitrary
quote-free junk parses to exactly those pairs in order, and in the dict
built from any pair list the binding of a key is its last occurrence's
value (first-match lookup on the reversed list). -/
theorem c6_parse_kv :
    (∀ (j0 : List Char) (cs : List KVChunk), (∀ c ∈ j0, c ≠ '"') →
      (∀ c ∈ cs, chunkWF c) →
      findallKV (embedKV j0 cs) = cs.map (fun c => (c.key, c.val))) ∧
    (∀ (t : List Char) (k : List Char),
      lookupKV k (pyDict (findallKV t)) = lookupKV k (findallKV t).reverse) :=
  ⟨fun j0 cs hj hcs => findallKV_embed cs j0 hj hcs,
   fun t k => lookupKV_pyDict (findallKV t) k⟩

/-- Concrete embedded text with a duplicate key "a": `t "a" "1" x "a" "2" y`. -/
def c6Chunks : List KVChunk :=
  [⟨"a".data, " ".data, "1".data, " x ".data⟩,
   ⟨"a".data, " ".data, "2".data, " y".data⟩]

theorem c6_witness :
    findallKV (embedKV "t ".data c6Chunks) =
      [("a".data, "1".data), ("a".data, "2".data)] ∧
    lookupKV "a".data (pyDict (findallKV (embedKV "t ".data c6Chunks))) =
      some "2".data := by
  constructor
  · exact (c6_parse_kv.1 "t ".data c6Chunks (by decide)
      (by intro c hc; unfold chunkWF; revert c hc; decide)).trans (by decide)
  · rw [c6_parse_kv.2]
    decide

theorem game_name_skip (fs : FS) (appid : String) (pre rest : List String)
    (h : ∀ l ∈ pre, fs.fexists (manifestPath l appid) = false) :
    game_name fs appid (pre ++ rest) = game_name fs appid rest := by
  induction pre with
  | nil => rfl
  | cons l t ih =>
      have hl := h l (by simp)
      rw [List.cons_append, game_name, hl]
      simp only [Bool.false_eq_true, if_false]
      exact ih (fun x hx => h x (by simp [hx]))

/-- C8: `game_name` scans the libraries in order; the first one holding a
manifest file for the appid determines the result — the manifest's `name`
value when the key is present, the synthesized `"AppID <id>"` when it is
absent — and when no library has a manifest the fallback is returned. -/
theorem c8_game_name :
    (∀ (fs : FS) (appid : String) (pre post : List String) (lib : String),
      (∀ l ∈ pre, fs.fexists (manifestPath l appid) = false) →
      fs.fexists (manifestPath lib appid) = true →
      ((∀ v, lookupKV "name".data (parse_kv fs (manifestPath lib appid)) = some v →
          game_name fs appid (pre ++ lib :: post) = String.mk v) ∧
        (lookupKV "name".data (parse_kv fs (manifestPath lib appid)) = none →
          game_name fs appid (pre ++ lib :: post) = "AppID " ++ appid))) ∧
    (∀ (fs : FS) (appid : String) (libs : List String),
      (∀ l ∈ libs, fs.fexists (manifestPath l appid) = false) →
      game_name fs appid libs = "AppID " ++ appid) := by
  constructor
  · intro fs appid pre post lib hpre hlib
    rw [game_name_skip fs appid pre (lib :: post) hpre]
    constructor
    · intro v hv
      rw [game_name, hlib]
      simp only [if_true]
      rw [hv]
    · intro hv
      rw [game_name, hlib]
      simp only [if_true]
      rw [hv]
  · intro fs appid libs hlibs
    have h := game_name_skip fs appid libs [] hlibs
    rw [List.append_nil] at h
    rw [h]
    rfl

/-- Filesystem holding one manifest for appid "10" in library "/L". -/
def fsC8mf : FS where
  fexists := fun p => p == manifestPath "/L" "10"
  readText := fun _ => some ("\"name\" \"HalfLife\"".data)
  resolve := fun p => p

theorem c8_witness :
    game_name fsC8mf "10" ["/L"] = String.mk "HalfLife".data ∧
    game_name fsC8mf "10" [] = "AppID " ++ "10" :=
  ⟨((c8_game_name.1 fsC8mf "10" [] [] "/L" (by simp) (by decide)).1
      "HalfLife".data (by decide)),
   c8_game_name.2 fsC8mf "10" [] (by simp)⟩

/-- A tree with a nested file that passes the `f.exists()` guard but is
deleted before its `f.stat()` call. -/
def raceTree : FTree :=
  .node [⟨100, true, true⟩] (.fcons (.node [⟨7, true, false⟩] .fnil) .fnil)

/-- A tree with a surviving nested file and a file already gone when the
guard ran. -/
def okTree : FTree :=
  .node [⟨100, true, true⟩, ⟨50, false, false⟩]
    (.fcons (.node [⟨200, true, true⟩] .fnil) .fnil)

/-- C9 (code bug evaluation): `dir_size` runs `f.exists()` and `f.stat()` as
two separate filesystem queries with no try/except around the stat, so a
file deleted after passing the guard makes the stat raise and the whole
measurement fail (`raceTree`) instead of being skipped as the claim states;
only a file already gone when the guard runs is skipped, contributing zero
while files in nested subdirectories are still summed (`okTree`). -/
theorem c9_dir_size_race :
    dir_size raceTree = .error () ∧ dir_size okTree = .ok 300 := by
  constructor <;> rfl

/-- C10: `parse_kv` maps a failed read to the empty dict instead of raising,
and every pair of any dict it returns has a non-empty quote-free key and a
quote-free value. -/
theorem c10_parse_kv_total :
    (∀ (fs : FS) (path : String), fs.readText path = none →
      parse_kv fs path = []) ∧
    (∀ (fs : FS) (path : String) (p : List Char × List Char),
      p ∈ parse_kv fs path →
      p.1 ≠ [] ∧ (∀ c ∈ p.1, c ≠ '"') ∧ (∀ c ∈ p.2, c ≠ '"')) := by
  constructor
  · intro fs path h
    unfold parse_kv
    rw [h]
  · intro fs path p hp
    unfold parse_kv at hp
    cases hr : fs.readText path with
    | none => rw [hr] at hp; simp at hp
    | some t =>
        rw [hr] at hp
        exact findallKV_shape t p (mem_pyDict hp)

/-- Filesystem on which every read raises. -/
def fsC10err : FS where
  fexists := fun _ => true
  readText := fun _ => none
  resolve := fun p => p

/-- Filesystem holding one parsable file. -/
def fsC10ok : FS where
  fexists := fun _ => true
  readText := fun _ => some ("\"k\" \"v\"".data)
  resolve := fun p => p

theorem c10_witness :
    parse_kv fsC10err "x" = [] ∧
    (("k".data, "v".data).1 ≠ [] ∧
      (∀ c ∈ ("k".data, "v".data).1, c ≠ '"') ∧
      (∀ c ∈ ("k".data, "v".data).2, c ≠ '"')) :=
  ⟨c10_parse_kv_total.1 fsC10err "x" rfl,
   c10_parse_kv_total.2 fsC10ok "m" ("k".data, "v".data) (by decide)⟩

end SteamMonitor
